import Mathlib

/-
Verification of the core logic of `script_translate.py` (multilingual
engineering glossary, Stage 1 translator).

Strings are embedded as lists of Unicode code points (`List Nat`); the
ASCII fragment of Python's case/whitespace handling is modelled, which is
the fragment exercised by every string constant in the program.  Fallible
remote calls are modelled as `Option`-valued oracles, and the observable
side effects of the translation loop (remote calls, progress-bar updates,
inter-batch sleeps) as an explicit event trace.
-/

/-- A Python string, as its list of code points. -/
abbrev Str := List Nat

/-- Code points of a Lean string literal, used to transcribe the Python
string constants. -/
def codes (s : String) : Str := s.data.map Char.toNat

/-- ASCII model of `str.lower()` applied to one code point. -/
def lowerChar (c : Nat) : Nat :=
  if 65 ≤ c ∧ c ≤ 90 then c + 32 else c

/-- Model of `name.lower()`. -/
def pyLower (s : Str) : Str := s.map lowerChar

/-- Characters removed by `re.sub(r'[\s\-_]', '', name)` (ASCII fragment
of `\s`, plus hyphen and underscore). -/
def isStripChar (c : Nat) : Bool :=
  c == 32 || c == 9 || c == 10 || c == 11 || c == 12 || c == 13 ||
    c == 45 || c == 95

/-- ASCII whitespace, as recognized by Python's `str.strip()`. -/
def isPySpace (c : Nat) : Bool :=
  c == 32 || c == 9 || c == 10 || c == 11 || c == 12 || c == 13

/-- Model of `s.strip()`: whitespace removed from both ends. -/
def pyStrip (s : Str) : Str :=
  ((s.dropWhile isPySpace).reverse.dropWhile isPySpace).reverse

/-- Test whether `p` is an initial segment of `s`
(Python `s.startswith(p)`). -/
def leadsWith : Str → Str → Bool
  | [], _ => true
  | _ :: _, [] => false
  | a :: as, b :: bs => a == b && leadsWith as bs

/-- Python's `p in s` substring test. -/
def isSubstrOf (p : Str) : Str → Bool
  | [] => leadsWith p []
  | c :: rest => leadsWith p (c :: rest) || isSubstrOf p rest

/-- Python's `s.endswith(suf)`. -/
def endsWithB (s suf : Str) : Bool :=
  suf.length ≤ s.length && s.drop (s.length - suf.length) == suf

/-- Model of `s.replace(a, b)` for a single-character pattern. -/
def pyReplaceChar (a b : Nat) (s : Str) : Str :=
  s.map (fun c => if c == a then b else c)

/-- Model of `s.replace(a, "")` for a single-character pattern. -/
def pyDeleteChar (a : Nat) (s : Str) : Str :=
  s.filter (fun c => !(c == a))

/-- Index of the last occurrence of `c` in `s` (Python `s.rfind(c)`,
with `none` for `-1`). -/
def rfindIdx (c : Nat) : Str → Option Nat
  | [] => none
  | x :: xs =>
    match rfindIdx c xs with
    | some i => some (i + 1)
    | none => if x == c then some 0 else none

/-- Whether some index `i` with `a ≤ i < b` holds a character other than
a dot — the basename check inside CPython's `splitext`. -/
def hasNonDot (s : Str) (a b : Nat) : Bool :=
  ((s.drop a).take (b - a)).any (fun c => !(c == 46))

/-- Model of `os.path.splitext(name)[0]` (POSIX separator): the part
before the last dot, unless the only dots lead the basename. -/
def splitextRoot (s : Str) : Str :=
  match rfindIdx 46 s with
  | none => s
  | some d =>
    match rfindIdx 47 s with
    | some sp =>
      if d ≤ sp then s
      else if hasNonDot s (sp + 1) d then s.take d else s
    | none => if hasNonDot s 0 d then s.take d else s

/-- Worker for `replaceAll`: `skip` counts characters of a matched
occurrence still to be dropped, so matching is non-overlapping and scans
left to right exactly as Python's `str.replace`. -/
def replaceAllGo (pat : Str) : Str → Nat → Str
  | [], _ => []
  | _ :: rest, skip + 1 => replaceAllGo pat rest skip
  | c :: rest, 0 =>
    if pat ≠ [] ∧ leadsWith pat (c :: rest) = true then
      replaceAllGo pat rest (pat.length - 1)
    else
      c :: replaceAllGo pat rest 0

/-- Model of `s.replace(pat, "")`: delete every non-overlapping
occurrence of `pat`, scanning left to right. -/
def replaceAll (pat s : Str) : Str := replaceAllGo pat s 0

/-- Whether `pat` occurs in `s` (used to state when `replaceAll` is the
identity). -/
def occursB (pat : Str) : Str → Bool
  | [] => leadsWith pat []
  | c :: rest => leadsWith pat (c :: rest) || occursB pat rest

/-- Decimal-digit test for the `\d` class. -/
def isDigitC (c : Nat) : Bool := 48 ≤ c && c ≤ 57

/-- Whether `s` starts with a match of the regex `wght\d+`. -/
def wghtAt (s : Str) : Bool :=
  leadsWith (codes "wght") s &&
    (match s.drop 4 with
     | d :: _ => isDigitC d
     | [] => false)

/-- Whether `wght\d+` matches anywhere in `s`. -/
def hasWghtB : Str → Bool
  | [] => false
  | c :: rest => wghtAt (c :: rest) || hasWghtB rest

/-- Worker for `removeWght`, with the same skip-counter discipline as
`replaceAllGo`; a match of `wght\d+` has length `4` plus its maximal
digit run. -/
def removeWghtGo : Str → Nat → Str
  | [], _ => []
  | _ :: rest, skip + 1 => removeWghtGo rest skip
  | c :: rest, 0 =>
    if wghtAt (c :: rest) = true then
      removeWghtGo rest (3 + (((c :: rest).drop 4).takeWhile isDigitC).length)
    else
      c :: removeWghtGo rest 0

/-- Model of `re.sub(r'wght\d+', '', s)`: remove each leftmost match of
`wght` followed by a maximal digit run. -/
def removeWght (s : Str) : Str := removeWghtGo s 0

/-- Model of `normalize_name` (script_translate.py, lines 265-277). -/
def normalize_name (name : Str) : Str :=
  removeWght
    (replaceAll (codes "variablefont")
      (replaceAll (codes "vf")
        (replaceAll (codes "regular")
          ((splitextRoot (pyLower name)).filter (fun c => !(isStripChar c))))))

/-- One scanned file: the directory yielded by the walker and the bare
file name.  `os.path.join(root, f)` is kept abstract as this pair. -/
structure ScanFile where
  root : Str
  fname : Str
deriving DecidableEq

/-- The global `FONT_PATH_CACHE`: an insertion-ordered map from
normalized key to the list of font paths filed under it. -/
abbrev FontCache := List (Str × List ScanFile)

/-- Key lookup in the cache (`norm_key in FONT_PATH_CACHE` and
`FONT_PATH_CACHE[norm_key]`). -/
def cacheLookup (cache : FontCache) (k : Str) : Option (List ScanFile) :=
  (cache.find? (fun e => e.1 == k)).map Prod.snd

/-- In-place mutation of one existing entry's path list. -/
def cacheUpdate (cache : FontCache) (k : Str) (f : List ScanFile → List ScanFile) :
    FontCache :=
  cache.map (fun e => if e.1 == k then (e.1, f e.2) else e)

/-- Lines 309-316 of `scan_directory`: create the entry when missing,
then insert a `.ttc` path at the front, any other path at the end. -/
def cacheAdd (cache : FontCache) (k : Str) (p : ScanFile) (ttc : Bool) : FontCache :=
  let cache1 :=
    match cacheLookup cache k with
    | some _ => cache
    | none => cache ++ [(k, [])]
  cacheUpdate cache1 k (fun l => if ttc then p :: l else l ++ [p])

/-- Recognized font container extensions, on the lowercased name. -/
def isFontExt (fl : Str) : Bool :=
  endsWithB fl (codes ".ttf") || endsWithB fl (codes ".otf") || endsWithB fl (codes ".ttc")

/-- The variable-font block list of `scan_directory`. -/
def isVariableName (fl : Str) : Bool :=
  isSubstrOf (codes "-vf") fl || isSubstrOf (codes "variable") fl ||
    isSubstrOf (codes "wght") fl

/-- Whether a stored path is a TrueType-collection file. -/
def isTtcFile (sf : ScanFile) : Bool := endsWithB (pyLower sf.fname) (codes ".ttc")

/-- Model of `scan_directory` (lines 279-318): the walker's output is
abstracted as the ordered list of files it yields; returns the updated
cache and the count of indexed files. -/
def scan_directory (files : List ScanFile) (cache : FontCache) : FontCache × Nat :=
  match files with
  | [] => (cache, 0)
  | sf :: rest =>
    let fl := pyLower sf.fname
    if isFontExt fl && !(isVariableName fl) then
      let r := scan_directory rest
        (cacheAdd cache (normalize_name sf.fname) sf (endsWithB fl (codes ".ttc")))
      (r.1, r.2 + 1)
    else scan_directory rest cache

/-- One `FONT_CONFIG` value: ordered search terms and the Excel family. -/
structure Rule where
  search_terms : List Str
  family : Str
deriving DecidableEq

/-- The `FONT_CONFIG` table (lines 180-255), in insertion order. -/
def FONT_CONFIG : List (Str × Rule) :=
  [ (codes "Default",
     ⟨[codes "notosansliving", codes "notosans-regular", codes "arial",
       codes "helvetica", codes "calibri", codes "segoeui"], codes "Noto Sans"⟩),
    (codes "French", ⟨[codes "notosans-regular", codes "arial"], codes "Noto Sans"⟩),
    (codes "Spanish", ⟨[codes "notosans-regular", codes "arial"], codes "Noto Sans"⟩),
    (codes "German", ⟨[codes "notosans-regular", codes "arial"], codes "Noto Sans"⟩),
    (codes "Italian", ⟨[codes "notosans-regular", codes "arial"], codes "Noto Sans"⟩),
    (codes "Portuguese", ⟨[codes "notosans-regular", codes "arial"], codes "Noto Sans"⟩),
    (codes "Turkish", ⟨[codes "notosans-regular", codes "arial"], codes "Noto Sans"⟩),
    (codes "Indonesian",
     ⟨[codes "notosansliving", codes "notosans-regular", codes "arial"], codes "Noto Sans"⟩),
    (codes "Russian",
     ⟨[codes "notosanscyrillic", codes "notosans-regular", codes "arial",
       codes "segoeui"], codes "Noto Sans"⟩),
    (codes "Vietnamese",
     ⟨[codes "notosansvietnamese", codes "notosans-regular", codes "arial",
       codes "segoeui"], codes "Noto Sans"⟩),
    (codes "Hausa", ⟨[codes "notosans-regular", codes "arial"], codes "Noto Sans"⟩),
    (codes "Swahili", ⟨[codes "notosans-regular", codes "arial"], codes "Noto Sans"⟩),
    (codes "Mandarin_Chinese",
     ⟨[codes "notosanssc", codes "notosanscjksc", codes "simhei", codes "simkai",
       codes "arialuni", codes "dengxian", codes "notoserifcjk"], codes "Noto Sans SC"⟩),
    (codes "Wu_Chinese",
     ⟨[codes "notosanssc", codes "notosanscjksc", codes "simhei", codes "arialuni"],
      codes "Noto Sans SC"⟩),
    (codes "Yue_Chinese",
     ⟨[codes "notosanstc", codes "notosanscjktc", codes "microsoftjhenghei",
       codes "msjh", codes "mingliu", codes "pmingliu", codes "simhei"],
      codes "Noto Sans TC"⟩),
    (codes "Japanese",
     ⟨[codes "notosansjp", codes "notosanscjkjp", codes "msgothic", codes "meiryo",
       codes "arialuni"], codes "Noto Sans JP"⟩),
    (codes "Korean",
     ⟨[codes "notosanskr", codes "notosanscjkkr", codes "malgun", codes "gulim",
       codes "arialuni"], codes "Noto Sans KR"⟩),
    (codes "Arabic",
     ⟨[codes "notosansarabic", codes "arial", codes "tahoma", codes "segoeui"],
      codes "Noto Sans Arabic"⟩),
    (codes "Egyptian_Arabic",
     ⟨[codes "notosansarabic", codes "arial"], codes "Noto Sans Arabic"⟩),
    (codes "Iranian_Persian",
     ⟨[codes "notosansarabic", codes "arial"], codes "Noto Sans Arabic"⟩),
    (codes "Urdu",
     ⟨[codes "notonastaliqurdu", codes "notosansarabic", codes "arial", codes "tahoma"],
      codes "Noto Nastaliq Urdu"⟩),
    (codes "Hindi",
     ⟨[codes "notosansdevanagari", codes "mangal", codes "nirmala", codes "aparajita"],
      codes "Noto Sans Devanagari"⟩),
    (codes "Marathi",
     ⟨[codes "notosansdevanagari", codes "mangal"], codes "Noto Sans Devanagari"⟩),
    (codes "Bengali", ⟨[codes "notosansbengali", codes "vrinda"], codes "Noto Sans Bengali"⟩),
    (codes "Telugu", ⟨[codes "notosanstelugu", codes "gautami"], codes "Noto Sans Telugu"⟩),
    (codes "Tamil", ⟨[codes "notosanstamil", codes "latha"], codes "Noto Sans Tamil"⟩),
    (codes "Gujarati",
     ⟨[codes "notosansgujarati", codes "shruti"], codes "Noto Sans Gujarati"⟩),
    (codes "Western_Punjabi",
     ⟨[codes "notosansarabic", codes "notosansgurmukhi", codes "raavi"],
      codes "Noto Sans Gurmukhi"⟩),
    (codes "Thai",
     ⟨[codes "notosansthai", codes "leelawadee", codes "tahoma"], codes "Noto Sans Thai"⟩),
    (codes "Javanese",
     ⟨[codes "notosansjavanese", codes "notosans-regular", codes "javatext"],
      codes "Noto Sans Javanese"⟩) ]

/-- Exact-key lookup in `FONT_CONFIG` (`language_name in FONT_CONFIG`). -/
def lookupConfig (name : Str) : Option Rule :=
  (FONT_CONFIG.find? (fun kv => kv.1 == name)).map Prod.snd

/-- The fallback-search loop of `get_excel_font_family` (lines 355-360):
the rule of the first table key occurring in `lang_search`, with the
`"Default"` rule when the loop falls through. -/
def configSearch (lang_search : Str) : List (Str × Rule) → Rule
  | [] => (lookupConfig (codes "Default")).getD ⟨[], []⟩
  | (k, v) :: rest => if isSubstrOf k lang_search then v else configSearch lang_search rest

/-- Step 1 of `get_excel_font_family` (lines 350-360): the `config`
selected for a language name. -/
def ruleFor (language_name : Str) : Rule :=
  match lookupConfig language_name with
  | some c => c
  | none => configSearch (pyReplaceChar 32 95 language_name) FONT_CONFIG

/-- Step 2's per-term test (lines 365-376): direct key match or fuzzy
substring match against the cache keys. -/
def termMatchesOne (cacheKeys : List Str) (term : Str) : Bool :=
  let term_norm := normalize_name term
  cacheKeys.contains term_norm || cacheKeys.any (fun k => isSubstrOf term_norm k)

/-- Model of `get_excel_font_family` (lines 340-379); the font index is
passed as its list of normalized keys. -/
def get_excel_font_family (cacheKeys : List Str) (language_name : Str) : Str :=
  if (ruleFor language_name).search_terms.any (termMatchesOne cacheKeys) then
    (ruleFor language_name).family
  else codes "Calibri"

/-- One spreadsheet cell value: `none` is a NaN/empty cell. -/
abbrev Cell := Option Str

/-- Line 419: `str(t) if pd.notna(t) and str(t).strip() else ""`. -/
def cleanCell (t : Cell) : Str :=
  match t with
  | none => []
  | some s => if pyStrip s == [] then [] else s

/-- The remote provider for one target language, as a pair of fallible
oracles (`none` models a raised exception). -/
structure Translator where
  translateBatch : List Str → Option (List Str)
  translateOne : Str → Option Str

/-- Observable side effects of the translation loop: progress-bar
updates, `time.sleep(REQUEST_DELAY)` pauses, and remote calls. -/
inductive Ev where
  | progress : Ev
  | sleep : Ev
  | batchCall : List Str → Ev
  | singleCall : Str → Ev
deriving DecidableEq

/-- The sentinel emitted when a degraded per-item call still fails. -/
def TRANSLATION_ERROR : Str := codes "[Translation Error]"

/-- The fixed batch size (line 164). -/
def CHUNK_SIZE : Nat := 50

/-- Events that are remote translation calls. -/
def isRemoteCall : Ev → Bool
  | Ev.batchCall _ => true
  | Ev.singleCall _ => true
  | _ => false

/-- One item of the degraded per-item path (lines 434-440). -/
def degradeItem (tr : Translator) (item : Str) : Str :=
  if item == [] then []
  else
    match tr.translateOne item with
    | some t => t
    | none => TRANSLATION_ERROR

/-- Remote calls issued by the degraded path: one per non-empty item. -/
def degradeEvents (clean_batch : List Str) : List Ev :=
  clean_batch.filterMap (fun it => if it == [] then none else some (Ev.singleCall it))

/-- The body of the batch loop of `batch_translate_text` (lines
415-444): results contributed by one batch, and its event trace. -/
def processBatch (tr : Translator) (batch : List Cell) : List Str × List Ev :=
  let clean_batch := batch.map cleanCell
  if clean_batch.all (fun x => x == []) then
    (List.replicate batch.length [], [Ev.progress])
  else
    match tr.translateBatch clean_batch with
    | some res => (res, [Ev.batchCall clean_batch, Ev.progress, Ev.sleep])
    | none =>
      (clean_batch.map (degradeItem tr),
       Ev.batchCall clean_batch :: (degradeEvents clean_batch ++ [Ev.progress, Ev.sleep]))

/-- Whether every entry of a batch cleans to the empty string. -/
def allBlankB (batch : List Cell) : Bool :=
  (batch.map cleanCell).all (fun x => x == [])

/-- Model of `batch_translate_text` (lines 408-446), generalized over
the `CHUNK_SIZE` constant `cs`; the Python loop `range(0, len, cs)`
requires `cs ≥ 1`. -/
def batch_translate_text (tr : Translator) (cs : Nat) (text_list : List Cell) :
    List Str × List Ev :=
  if h : cs = 0 ∨ text_list = [] then ([], [])
  else
    let pb := processBatch tr (text_list.take cs)
    let rest := batch_translate_text tr cs (text_list.drop cs)
    (pb.1 ++ rest.1, pb.2 ++ rest.2)
termination_by text_list.length
decreasing_by
  simp only [List.length_drop]
  have h1 : cs ≠ 0 := fun hc => h (Or.inl hc)
  have h2 : text_list ≠ [] := fun hc => h (Or.inr hc)
  have := List.length_pos.mpr h2
  omega

/-- The two columns a worker returns for one language (lines 448-476). -/
structure WorkerResult where
  w_col : Str
  w_data : List Str
  d_col : Str
  d_data : List Str
deriving DecidableEq

/-- Model of `worker_process_language`: the source data frame appears as
its word column, its optional description column, and the language's
display name; the provider for the language code is `tr`. -/
def worker_process_language (tr : Translator) (name : Str) (words : List Cell)
    (descrs : Option (List Cell)) : WorkerResult :=
  let clean_name := pyDeleteChar 41 (pyDeleteChar 40 (pyReplaceChar 32 95 name))
  { w_col := clean_name ++ codes "_word"
    w_data := (batch_translate_text tr CHUNK_SIZE words).1
    d_col := clean_name ++ codes "_descr"
    d_data :=
      match descrs with
      | some d => (batch_translate_text tr CHUNK_SIZE d).1
      | none => List.replicate words.length [] }

/-- A worksheet cell in the formatting pass: its stringified value and
its font-family attribute. -/
structure FCell where
  value : Str
  font : Option Str
deriving DecidableEq

/-- A worksheet column: `col[0]` and `col[1:]`. -/
structure Col where
  headerCell : FCell
  dataCells : List FCell
deriving DecidableEq

/-- Header-to-language inference of the formatting pass (lines 608-614);
`none` is Python's `lang_name = None`. -/
def headerLangName (header : Str) : Option Str :=
  if pyLower header == codes "category" then some (codes "Default")
  else if endsWithB header (codes "_word") then some (replaceAll (codes "_word") header)
  else if endsWithB header (codes "_descr") then some (replaceAll (codes "_descr") header)
  else none

/-- Lines 617-625 for one column: resolve and apply the font when the
header names a language; the returned list records the resolver calls
this column triggers. -/
def formatColumn (cacheKeys : List Str) (col : Col) : Col × List Str :=
  match headerLangName col.headerCell.value with
  | none => (col, [])
  | some lang_name =>
    if lang_name == [] then (col, [])
    else
      let font_family := get_excel_font_family cacheKeys lang_name
      if font_family == codes "Calibri" then (col, [lang_name])
      else
        ({ col with
           dataCells := col.dataCells.map (fun c => { c with font := some font_family }) },
         [lang_name])

/-- The whole font-formatting pass of `main` (lines 604-625), over the
columns of the saved table in order. -/
def apply_font_formatting (cacheKeys : List Str) : List Col → List Col × List Str
  | [] => ([], [])
  | col :: rest =>
    let r := formatColumn cacheKeys col
    let rr := apply_font_formatting cacheKeys rest
    (r.1 :: rr.1, r.2 ++ rr.2)

/-- The resolver argument a column contributes, when it contributes one. -/
def colCallArg (col : Col) : Option Str :=
  match headerLangName col.headerCell.value with
  | none => none
  | some l => if l == [] then none else some l

/-- The shape invariant of a cache entry: every collection-format path
precedes every other path. -/
def TtcFirst (l : List ScanFile) : Prop :=
  ∃ a b, l = a ++ b ∧ (∀ x ∈ a, isTtcFile x = true) ∧ (∀ x ∈ b, isTtcFile x = false)

/-- Every entry of the cache satisfies `TtcFirst`. -/
def CacheTtcFirst (cache : FontCache) : Prop := ∀ e ∈ cache, TtcFirst e.2

/-- Modelled from the claim's words (C4): the language name with its
space characters removed outright. -/
def strip_spaces_spec (name : Str) : Str := name.filter (fun c => !(c == 32))

/-- Modelled from the claim's words (C4): select the rule whose table
key is a substring of the space-removed name, else Default. -/
def select_rule_space_removed_spec (name : Str) : Rule :=
  configSearch (strip_spaces_spec name) FONT_CONFIG

/-- Modelled from the claim's words (C7): the language display name with
spaces and parentheses removed outright. -/
def strip_spaces_parens_spec (name : Str) : Str :=
  name.filter (fun c => !(c == 32) && !(c == 40) && !(c == 41))

/-- The column-name base of the amended C7: spaces replaced by
underscores, parentheses dropped. -/
def clean_name_spec (name : Str) : Str :=
  (pyReplaceChar 32 95 name).filter (fun c => !(c == 40) && !(c == 41))

example : normalize_name (codes "01_NotoSans-Regular.ttf") = codes "01notosans" := by decide
example : normalize_name (codes "NotoSansCJK.ttc") = codes "notosanscjk" := by decide
example : normalize_name (codes "a.b.ttf") = codes "a.b" := by decide

theorem lowerChar_lowerChar (c : Nat) : lowerChar (lowerChar c) = lowerChar c := by
  unfold lowerChar
  by_cases h : 65 ≤ c ∧ c ≤ 90
  · rw [if_pos h, if_neg (by omega)]
  · rw [if_neg h, if_neg h]

theorem mem_replaceAllGo {pat s : Str} {skip x : Nat}
    (h : x ∈ replaceAllGo pat s skip) : x ∈ s := by
  induction s generalizing skip with
  | nil => simpa [replaceAllGo] using h
  | cons c rest ih =>
    cases skip with
    | succ k => exact List.mem_cons_of_mem _ (ih h)
    | zero =>
      simp only [replaceAllGo] at h
      split at h
      · exact List.mem_cons_of_mem _ (ih h)
      · rcases List.mem_cons.mp h with h1 | h1
        · simp [h1]
        · exact List.mem_cons_of_mem _ (ih h1)

theorem mem_replaceAll {pat s : Str} {x : Nat} (h : x ∈ replaceAll pat s) : x ∈ s :=
  mem_replaceAllGo h

theorem mem_removeWghtGo {s : Str} {skip x : Nat}
    (h : x ∈ removeWghtGo s skip) : x ∈ s := by
  induction s generalizing skip with
  | nil => simpa [removeWghtGo] using h
  | cons c rest ih =>
    cases skip with
    | succ k => exact List.mem_cons_of_mem _ (ih h)
    | zero =>
      simp only [removeWghtGo] at h
      split at h
      · exact List.mem_cons_of_mem _ (ih h)
      · rcases List.mem_cons.mp h with h1 | h1
        · simp [h1]
        · exact List.mem_cons_of_mem _ (ih h1)

theorem mem_removeWght {s : Str} {x : Nat} (h : x ∈ removeWght s) : x ∈ s :=
  mem_removeWghtGo h

theorem replaceAll_of_not_occurs {pat s : Str} (h : occursB pat s = false) :
    replaceAll pat s = s := by
  unfold replaceAll
  induction s with
  | nil => rfl
  | cons c rest ih =>
    rw [occursB, Bool.or_eq_false_iff] at h
    rw [replaceAllGo, if_neg, ih h.2]
    rintro ⟨hne, hlw⟩
    rw [h.1] at hlw
    exact Bool.false_ne_true hlw

theorem removeWght_of_not_has {s : Str} (h : hasWghtB s = false) :
    removeWght s = s := by
  unfold removeWght
  induction s with
  | nil => rfl
  | cons c rest ih =>
    rw [hasWghtB, Bool.or_eq_false_iff] at h
    rw [removeWghtGo, if_neg (by simp [h.1]), ih h.2]

theorem rfindIdx_eq_none {c : Nat} {s : Str} (h : c ∉ s) : rfindIdx c s = none := by
  induction s with
  | nil => rfl
  | cons x xs ih =>
    simp only [List.mem_cons, not_or] at h
    rw [rfindIdx, ih h.2]
    simp only []
    rw [if_neg]
    simp only [beq_iff_eq]
    exact fun hx => h.1 hx.symm

theorem splitextRoot_of_no_dot {s : Str} (h : (46 : Nat) ∉ s) : splitextRoot s = s := by
  unfold splitextRoot
  rw [rfindIdx_eq_none h]

theorem mem_splitextRoot {s : Str} {x : Nat} (h : x ∈ splitextRoot s) : x ∈ s := by
  unfold splitextRoot at h
  split at h
  · exact h
  · split at h
    · split at h
      · exact h
      · split at h
        · exact List.take_subset _ _ h
        · exact h
    · split at h
      · exact List.take_subset _ _ h
      · exact h

theorem mem_normalize_core {x : Str} {c : Nat} (h : c ∈ normalize_name x) :
    c ∈ (splitextRoot (pyLower x)).filter (fun c => !(isStripChar c)) :=
  mem_replaceAll (mem_replaceAll (mem_replaceAll (mem_removeWght h)))

theorem normalize_chars_lower {x : Str} {c : Nat} (h : c ∈ normalize_name x) :
    lowerChar c = c := by
  have h2 : c ∈ splitextRoot (pyLower x) := (List.mem_filter.mp (mem_normalize_core h)).1
  obtain ⟨d, hd, rfl⟩ := List.mem_map.mp (mem_splitextRoot h2)
  exact lowerChar_lowerChar d

theorem normalize_chars_no_strip {x : Str} {c : Nat} (h : c ∈ normalize_name x) :
    isStripChar c = false := by
  have := (List.mem_filter.mp (mem_normalize_core h)).2
  simpa using this

theorem pyLower_eq_self {s : Str} (h : ∀ c ∈ s, lowerChar c = c) : pyLower s = s := by
  induction s with
  | nil => rfl
  | cons c rest ih =>
    have hc := h c (by simp)
    have hr := ih (fun d hd => h d (List.mem_cons_of_mem _ hd))
    simp only [pyLower, List.map_cons] at hr ⊢
    rw [hc, hr]

/-- C8 counterexample: the name normalizer is not idempotent, because a
normalized name can retain an inner dot that a second `splitext` pass
then treats as an extension: `normalize("a.b.ttf") = "a.b"` but
`normalize("a.b") = "a"`. -/
theorem normalize_name_not_idempotent :
    normalize_name (normalize_name (codes "a.b.ttf")) ≠ normalize_name (codes "a.b.ttf") := by
  decide

/-- C8 amended: the normalizer is idempotent on every input whose
normalized form contains no dot, no occurrence of the removed markers
`"regular"`, `"vf"`, `"variablefont"`, and no `wght` weight tag — in
particular on every name whose normal form looks like a normal form. -/
theorem normalize_name_idem (x : Str)
    (hdot : (46 : Nat) ∉ normalize_name x)
    (hreg : occursB (codes "regular") (normalize_name x) = false)
    (hvf : occursB (codes "vf") (normalize_name x) = false)
    (hvar : occursB (codes "variablefont") (normalize_name x) = false)
    (hw : hasWghtB (normalize_name x) = false) :
    normalize_name (normalize_name x) = normalize_name x := by
  have hlow : pyLower (normalize_name x) = normalize_name x :=
    pyLower_eq_self (fun c hc => normalize_chars_lower hc)
  have hfil : (normalize_name x).filter (fun c => !(isStripChar c)) = normalize_name x :=
    List.filter_eq_self.mpr (fun c hc => by simp [normalize_chars_no_strip hc])
  conv_lhs => rw [normalize_name]
  rw [hlow, splitextRoot_of_no_dot hdot, hfil, replaceAll_of_not_occurs hreg,
    replaceAll_of_not_occurs hvf, replaceAll_of_not_occurs hvar,
    removeWght_of_not_has hw]

/-- Witness for the amended C8 statement at a realistic font file name. -/
theorem normalize_name_idem_witness :
    normalize_name (normalize_name (codes "NotoSans-Regular.ttf"))
      = normalize_name (codes "NotoSans-Regular.ttf") :=
  normalize_name_idem (codes "NotoSans-Regular.ttf")
    (by decide) (by decide) (by decide) (by decide) (by decide)

/-- C3: when no search term of the selected rule matches the font index
(neither as an exact normalized key nor as a substring of an indexed
key), the resolver returns the fixed safe default `"Calibri"` — a
non-empty family that is not a Noto name. -/
theorem get_excel_font_family_fallback_calibri (cacheKeys : List Str) (name : Str)
    (h : ∀ t ∈ (ruleFor name).search_terms, termMatchesOne cacheKeys t = false) :
    get_excel_font_family cacheKeys name = codes "Calibri" ∧
      get_excel_font_family cacheKeys name ≠ [] ∧
      leadsWith (codes "Noto") (get_excel_font_family cacheKeys name) = false := by
  have hany : (ruleFor name).search_terms.any (termMatchesOne cacheKeys) = false := by
    rw [List.any_eq_false]
    intro t ht
    simp [h t ht]
  unfold get_excel_font_family
  rw [if_neg (by simp [hany])]
  exact ⟨rfl, by decide, by decide⟩

/-- Witness for C3: an unknown language against an empty font index. -/
theorem get_excel_font_family_fallback_calibri_witness :
    get_excel_font_family [] (codes "Zulu") = codes "Calibri" :=
  (get_excel_font_family_fallback_calibri [] (codes "Zulu") (by decide)).1

/-- C4 counterexample: `"Mandarin Chinese"` has no exact table entry;
the code keys the fallback search on the name with spaces replaced by
underscores, finds `Mandarin_Chinese`, and (with `notosanssc` indexed)
answers `"Noto Sans SC"` — while selecting by substring of the
space-REMOVED name finds no key and would answer `"Noto Sans"`. -/
theorem get_excel_font_family_space_removed_cex :
    lookupConfig (codes "Mandarin Chinese") = none ∧
    get_excel_font_family [codes "notosanssc"] (codes "Mandarin Chinese")
      = codes "Noto Sans SC" ∧
    (if (select_rule_space_removed_spec (codes "Mandarin Chinese")).search_terms.any
        (termMatchesOne [codes "notosanssc"]) then
      (select_rule_space_removed_spec (codes "Mandarin Chinese")).family
     else codes "Calibri") ≠ codes "Noto Sans SC" := by
  decide

theorem configSearch_eq_find (u : Str) (table : List (Str × Rule)) :
    configSearch u table =
      ((table.find? (fun kv => isSubstrOf kv.1 u)).map Prod.snd).getD
        ((lookupConfig (codes "Default")).getD ⟨[], []⟩) := by
  induction table with
  | nil => rfl
  | cons kv rest ih =>
    rcases kv with ⟨k, v⟩
    by_cases hk : isSubstrOf k u = true
    · have hf : List.find? (fun kv => isSubstrOf kv.1 u) ((k, v) :: rest) = some (k, v) :=
        List.find?_cons_of_pos _ hk
      rw [configSearch, if_pos hk, hf]
      rfl
    · have hf : List.find? (fun kv => isSubstrOf kv.1 u) ((k, v) :: rest) =
          List.find? (fun kv => isSubstrOf kv.1 u) rest :=
        List.find?_cons_of_neg _ (by simpa using hk)
      rw [configSearch, if_neg (by simp [hk]), hf, ih]

/-- C4 amended: for a language name with no exact entry,
`get_excel_font_family` uses the rule of the first table key that is a
substring of the name with its spaces replaced by underscores, and the
`"Default"` rule only when no table key is such a substring. -/
theorem get_excel_font_family_substring_selection (cacheKeys : List Str) (name : Str)
    (h : lookupConfig name = none) :
    get_excel_font_family cacheKeys name =
      (if (((FONT_CONFIG.find? (fun kv => isSubstrOf kv.1 (pyReplaceChar 32 95 name))).map
            Prod.snd).getD ((lookupConfig (codes "Default")).getD ⟨[], []⟩)).search_terms.any
          (termMatchesOne cacheKeys) then
        (((FONT_CONFIG.find? (fun kv => isSubstrOf kv.1 (pyReplaceChar 32 95 name))).map
            Prod.snd).getD ((lookupConfig (codes "Default")).getD ⟨[], []⟩)).family
       else codes "Calibri") := by
  have hr : ruleFor name = configSearch (pyReplaceChar 32 95 name) FONT_CONFIG := by
    unfold ruleFor
    rw [h]
  unfold get_excel_font_family
  rw [hr, configSearch_eq_find]

/-- Witness for the amended C4 statement at `"Mandarin Chinese"`. -/
theorem get_excel_font_family_substring_selection_witness :
    get_excel_font_family [codes "notosanssc"] (codes "Mandarin Chinese")
      = codes "Noto Sans SC" :=
  (get_excel_font_family_substring_selection [codes "notosanssc"]
    (codes "Mandarin Chinese") (by decide)).trans (by decide)

theorem processBatch_all_blank (tr : Translator) (batch : List Cell)
    (hb : allBlankB batch = true) :
    processBatch tr batch = (List.replicate batch.length [], [Ev.progress]) := by
  unfold allBlankB at hb
  unfold processBatch
  rw [if_pos hb]

theorem count_progress_degradeEvents (c : List Str) :
    (degradeEvents c).count Ev.progress = 0 := by
  rw [List.count_eq_zero]
  intro h
  obtain ⟨it, hit, heq⟩ := List.mem_filterMap.mp h
  split at heq <;> simp_all

theorem not_sleep_degradeEvents (c : List Str) : Ev.sleep ∉ degradeEvents c := by
  intro h
  obtain ⟨it, hit, heq⟩ := List.mem_filterMap.mp h
  split at heq <;> simp_all

/-- C5 counterexample: a batch whose values are all blank updates the
progress bar but skips `time.sleep(REQUEST_DELAY)` entirely — the
`continue` in the short-circuit branch jumps over the delay, so no pause
is taken before the next batch begins. -/
theorem processBatch_sleep_skipped_cex :
    (processBatch ⟨fun b => some b, fun s => some s⟩ [(none : Cell)]).2 = [Ev.progress] ∧
    (processBatch ⟨fun b => some b, fun s => some s⟩ [(none : Cell)]).2.contains Ev.sleep
      = false := by
  decide

/-- C5 amended: after every batch the progress counter is advanced by
exactly one chunk, but the inter-batch delay is taken only after batches
that issued (or attempted) a remote call: an all-empty short-circuited
batch skips it, and otherwise the delay closes the batch's trace. -/
theorem processBatch_progress_delay (tr : Translator) (batch : List Cell) :
    ((processBatch tr batch).2.count Ev.progress = 1) ∧
    ((processBatch tr batch).2.contains Ev.sleep = !allBlankB batch) ∧
    ((processBatch tr batch).2.getLast? =
      some (if allBlankB batch then Ev.progress else Ev.sleep)) := by
  by_cases hb : allBlankB batch = true
  · rw [processBatch_all_blank tr batch hb, hb]
    simp
  · have hb3 : allBlankB batch = false := by
      unfold allBlankB
      unfold allBlankB at hb
      simpa using hb
    have hb2 : ((batch.map cleanCell).all (fun x => x == [])) = false := hb3
    rw [hb3]
    unfold processBatch
    rw [if_neg (by rw [hb2]; simp)]
    cases htr : tr.translateBatch (batch.map cleanCell) with
    | some res =>
      exact ⟨by simp [List.count_cons], by simp, by simp⟩
    | none =>
      refine ⟨?_, ?_, ?_⟩
      · simp [List.count_cons, List.count_append, count_progress_degradeEvents]
      · simp
      · have hassoc : Ev.batchCall (batch.map cleanCell) ::
            (degradeEvents (batch.map cleanCell) ++ [Ev.progress, Ev.sleep])
            = (Ev.batchCall (batch.map cleanCell) ::
                (degradeEvents (batch.map cleanCell) ++ [Ev.progress])) ++ [Ev.sleep] := by
          simp
        rw [hassoc, List.getLast?_concat]
        simp

theorem allBlankB_of_subset {values l : List Cell} (hb : allBlankB values = true)
    (hsub : ∀ x ∈ l, x ∈ values) : allBlankB l = true := by
  unfold allBlankB at hb ⊢
  rw [List.all_eq_true] at hb ⊢
  intro x hx
  obtain ⟨c, hc, rfl⟩ := List.mem_map.mp hx
  exact hb _ (List.mem_map.mpr ⟨c, hsub c hc, rfl⟩)

theorem btt_all_blank (tr : Translator) (cs : Nat) (hcs : 1 ≤ cs) :
    ∀ n (values : List Cell), values.length ≤ n → allBlankB values = true →
      (batch_translate_text tr cs values).1 = List.replicate values.length [] ∧
      ∀ e ∈ (batch_translate_text tr cs values).2, e = Ev.progress := by
  intro n
  induction n with
  | zero =>
    intro values hl _
    have hv : values = [] := List.eq_nil_of_length_eq_zero (Nat.le_zero.mp hl)
    subst hv
    rw [batch_translate_text]
    simp
  | succ n ih =>
    intro values hl hb
    by_cases hv : values = []
    · subst hv
      rw [batch_translate_text]
      simp
    · have hpos : 0 < values.length := List.length_pos.mpr hv
      rw [batch_translate_text, dif_neg (by push_neg; exact ⟨by omega, hv⟩)]
      have htake : allBlankB (values.take cs) = true :=
        allBlankB_of_subset hb (fun x hx => List.take_subset _ _ hx)
      have hdrop : allBlankB (values.drop cs) = true :=
        allBlankB_of_subset hb (fun x hx => List.drop_subset _ _ hx)
      have hrec := ih (values.drop cs) (by simp only [List.length_drop]; omega) hdrop
      rw [processBatch_all_blank tr _ htake]
      constructor
      · simp only [hrec.1, List.length_take, List.length_drop]
        rw [← List.replicate_add]
        congr 1
        omega
      · intro e he
        rcases List.mem_append.mp he with h1 | h1
        · simpa using h1
        · exact hrec.2 e h1

/-- C2: a batch whose entries are all blank, whitespace-only, or NaN
triggers no remote translation call and contributes an empty string at
each of its positions; a run whose values are all blank likewise makes
no remote call at all and returns all-empty output of the same length. -/
theorem batch_translate_text_empty_short_circuit (tr : Translator) (cs : Nat)
    (batch values : List Cell) (hb : allBlankB batch = true)
    (hv : allBlankB values = true) (hcs : 1 ≤ cs) :
    processBatch tr batch = (List.replicate batch.length [], [Ev.progress]) ∧
    (∀ e ∈ (processBatch tr batch).2, isRemoteCall e = false) ∧
    (batch_translate_text tr cs values).1 = List.replicate values.length [] ∧
    (∀ e ∈ (batch_translate_text tr cs values).2, isRemoteCall e = false) := by
  have h1 := processBatch_all_blank tr batch hb
  have h2 := btt_all_blank tr cs hcs values.length values le_rfl hv
  refine ⟨h1, ?_, h2.1, ?_⟩
  · intro e he
    rw [h1] at he
    rcases List.mem_singleton.mp he with rfl
    rfl
  · intro e he
    rw [h2.2 e he]
    rfl

/-- Witness for C2: a one-cell NaN batch and run. -/
theorem batch_translate_text_empty_short_circuit_witness :
    processBatch ⟨fun _ => none, fun _ => none⟩ [(none : Cell)]
      = (List.replicate 1 [], [Ev.progress]) :=
  (batch_translate_text_empty_short_circuit ⟨fun _ => none, fun _ => none⟩ 1
    [(none : Cell)] [(none : Cell)] (by decide) (by decide) (by decide)).1

theorem ttcFirst_nil : TtcFirst [] := ⟨[], [], rfl, by simp, by simp⟩

theorem ttcFirst_cons {l : List ScanFile} {p : ScanFile} (h : TtcFirst l)
    (hp : isTtcFile p = true) : TtcFirst (p :: l) := by
  obtain ⟨a, b, rfl, ha, hb⟩ := h
  refine ⟨p :: a, b, rfl, ?_, hb⟩
  intro x hx
  rcases List.mem_cons.mp hx with rfl | hx
  · exact hp
  · exact ha x hx

theorem ttcFirst_append {l : List ScanFile} {p : ScanFile} (h : TtcFirst l)
    (hp : isTtcFile p = false) : TtcFirst (l ++ [p]) := by
  obtain ⟨a, b, rfl, ha, hb⟩ := h
  refine ⟨a, b ++ [p], by simp, ha, ?_⟩
  intro x hx
  rcases List.mem_append.mp hx with hx | hx
  · exact hb x hx
  · rw [List.mem_singleton] at hx
    subst hx
    exact hp

theorem cacheAdd_ttcFirst {cache : FontCache} (h : CacheTtcFirst cache) (k : Str)
    (p : ScanFile) : CacheTtcFirst (cacheAdd cache k p (isTtcFile p)) := by
  have h1 : CacheTtcFirst (match cacheLookup cache k with
      | some _ => cache
      | none => cache ++ [(k, [])]) := by
    cases cacheLookup cache k with
    | some v => exact h
    | none =>
      intro e he
      rcases List.mem_append.mp he with he | he
      · exact h e he
      · rw [List.mem_singleton] at he
        subst he
        exact ttcFirst_nil
  intro e he
  unfold cacheAdd cacheUpdate at he
  obtain ⟨e0, he0, rfl⟩ := List.mem_map.mp he
  have he0t := h1 e0 he0
  by_cases hk : (e0.1 == k) = true
  · rw [if_pos hk]
    show TtcFirst (if isTtcFile p then p :: e0.2 else e0.2 ++ [p])
    by_cases hp : isTtcFile p = true
    · rw [if_pos hp]
      exact ttcFirst_cons he0t hp
    · have hp2 : isTtcFile p = false := by simpa using hp
      rw [if_neg (by simp [hp2])]
      exact ttcFirst_append he0t hp2
  · rw [if_neg hk]
    exact he0t

theorem scan_directory_ttcFirst_aux (files : List ScanFile) :
    ∀ cache : FontCache, CacheTtcFirst cache →
      CacheTtcFirst (scan_directory files cache).1 := by
  induction files with
  | nil => exact fun cache h => h
  | cons sf rest ih =>
    intro cache h
    rw [scan_directory]
    by_cases hc : (isFontExt (pyLower sf.fname) && !(isVariableName (pyLower sf.fname))) = true
    · rw [if_pos hc]
      exact ih _ (cacheAdd_ttcFirst h _ _)
    · rw [if_neg hc]
      exact ih cache h

theorem ttcFirst_index {l : List ScanFile} (h : TtcFirst l) {i j : Nat}
    (hi : i < l.length) (hj : j < l.length) (hij : i < j)
    (hjt : isTtcFile (l.get ⟨j, hj⟩) = true) : isTtcFile (l.get ⟨i, hi⟩) = true := by
  obtain ⟨a, b, rfl, ha, hb⟩ := h
  by_cases hia : i < a.length
  · have heq : (a ++ b).get ⟨i, hi⟩ = a.get ⟨i, hia⟩ := List.getElem_append_left hia
    rw [heq]
    exact ha _ (a.get_mem _ _)
  · exfalso
    have hja : a.length ≤ j := by omega
    have heq : (a ++ b).get ⟨j, hj⟩
        = b.get ⟨j - a.length, by have := hj; simp only [List.length_append] at this; omega⟩ :=
      List.getElem_append_right hja
    rw [heq] at hjt
    rw [hb _ (b.get_mem _ _)] at hjt
    exact Bool.false_ne_true hjt

/-- C9: in the index built by `scan_directory`, within any entry every
`.ttc` collection path precedes every non-collection path — a `.ttc` is
inserted at the front of its entry and any other file is appended at the
end, regardless of scan order. -/
theorem scan_directory_ttc_first (files : List ScanFile) (key : Str)
    (l : List ScanFile) (h : cacheLookup (scan_directory files []).1 key = some l)
    (i j : Nat) (hi : i < l.length) (hj : j < l.length) (hij : i < j)
    (hjt : isTtcFile (l.get ⟨j, hj⟩) = true) :
    isTtcFile (l.get ⟨i, hi⟩) = true := by
  have hinv := scan_directory_ttcFirst_aux files [] (by intro e he; cases he)
  unfold cacheLookup at h
  cases hf : (scan_directory files []).1.find? (fun e => e.1 == key) with
  | none => rw [hf] at h; cases h
  | some e =>
    rw [hf] at h
    have hmem := List.mem_of_find?_eq_some hf
    have hent := hinv e hmem
    have : e.2 = l := by simpa using h
    rw [this] at hent
    exact ttcFirst_index hent hi hj hij hjt

/-- Witness for C9: two files sharing the key `ax`, the `.ttc` inserted
second but listed first. -/
theorem scan_directory_ttc_first_witness :
    isTtcFile (([⟨codes "f", codes "a_x.ttc"⟩,
        ⟨codes "f", codes "a-x.ttc"⟩] : List ScanFile).get ⟨0, by decide⟩) = true :=
  scan_directory_ttc_first
    [⟨codes "f", codes "a-x.ttc"⟩, ⟨codes "f", codes "a_x.ttc"⟩] (codes "ax")
    [⟨codes "f", codes "a_x.ttc"⟩, ⟨codes "f", codes "a-x.ttc"⟩]
    (by decide) 0 1 (by decide) (by decide) (by decide) (by decide)

/-- C10: applied to an empty input list, `batch_translate_text` returns
the empty result list with an empty event trace: no remote call, no
progress update, and no inter-batch delay — the batch loop body never
executes. -/
theorem batch_translate_text_nil (tr : Translator) (cs : Nat) :
    batch_translate_text tr cs [] = ([], []) := by
  rw [batch_translate_text]
  simp

theorem formatColumn_trace (cacheKeys : List Str) (col : Col) :
    (formatColumn cacheKeys col).2 = (colCallArg col).toList := by
  rcases hh : headerLangName col.headerCell.value with _ | l
  · simp [formatColumn, colCallArg, hh]
  · by_cases hl : (l == []) = true
    · simp [formatColumn, colCallArg, hh, hl]
    · by_cases hc : (get_excel_font_family cacheKeys l == codes "Calibri") = true
      · simp [formatColumn, colCallArg, hh, hl, hc]
      · simp [formatColumn, colCallArg, hh, hl, hc]

theorem formatColumn_header (cacheKeys : List Str) (col : Col) :
    (formatColumn cacheKeys col).1.headerCell = col.headerCell := by
  rcases hh : headerLangName col.headerCell.value with _ | l
  · simp [formatColumn, hh]
  · by_cases hl : (l == []) = true
    · simp [formatColumn, hh, hl]
    · by_cases hc : (get_excel_font_family cacheKeys l == codes "Calibri") = true
      · simp [formatColumn, hh, hl, hc]
      · simp [formatColumn, hh, hl, hc]

/-- C6 counterexample: a column whose header is neither `category` nor a
`_word`/`_descr` name triggers no resolver call, so the resolver is not
called once per column of the table. -/
theorem apply_font_formatting_once_per_column_cex :
    (apply_font_formatting [] [⟨⟨codes "Notes", none⟩, [⟨codes "x", none⟩]⟩]).2.length
      ≠ [(⟨⟨codes "Notes", none⟩, [⟨codes "x", none⟩]⟩ : Col)].length := by
  decide

/-- C6 amended: the resolver is called exactly once per column whose
header is `category` (case-insensitively) or carries a `_word`/`_descr`
suffix with a nonempty residual language name — other columns trigger no
call — and the resolved family is written to every data cell (the header
cell excluded) only when it differs from `"Calibri"`; all other columns
pass through unchanged. -/
theorem apply_font_formatting_behavior (cacheKeys : List Str) (cols : List Col) :
    (apply_font_formatting cacheKeys cols).2 = cols.filterMap colCallArg ∧
    (apply_font_formatting cacheKeys cols).1
        = cols.map (fun c => (formatColumn cacheKeys c).1) ∧
    (∀ c : Col, (formatColumn cacheKeys c).1.headerCell = c.headerCell) ∧
    (∀ c : Col, colCallArg c = none → formatColumn cacheKeys c = (c, [])) ∧
    (∀ c : Col, ∀ l : Str, colCallArg c = some l →
      get_excel_font_family cacheKeys l ≠ codes "Calibri" →
      (formatColumn cacheKeys c).1.dataCells
        = c.dataCells.map (fun cell =>
            { cell with font := some (get_excel_font_family cacheKeys l) })) ∧
    (∀ c : Col, ∀ l : Str, colCallArg c = some l →
      get_excel_font_family cacheKeys l = codes "Calibri" →
      (formatColumn cacheKeys c).1 = c) := by
  refine ⟨?_, ?_, formatColumn_header cacheKeys, ?_, ?_, ?_⟩
  · induction cols with
    | nil => rfl
    | cons c rest ih =>
      rw [apply_font_formatting, List.filterMap_cons]
      cases hc : colCallArg c with
      | none => rw [ih]; rw [formatColumn_trace, hc]; rfl
      | some l => rw [formatColumn_trace, hc, ih]; rfl
  · induction cols with
    | nil => rfl
    | cons c rest ih => rw [apply_font_formatting, List.map_cons, ih]
  · intro c h
    unfold colCallArg at h
    rcases hh : headerLangName c.headerCell.value with _ | l
    · simp [formatColumn, hh]
    · rw [hh] at h
      by_cases hl : (l == []) = true
      · simp [formatColumn, hh, hl]
      · simp [hl] at h
  · intro c l h hfam
    unfold colCallArg at h
    rcases hh : headerLangName c.headerCell.value with _ | l0
    · simp [hh] at h
    · rw [hh] at h
      by_cases hl : (l0 == []) = true
      · simp [hl] at h
      · simp [hl] at h
        subst h
        simp [formatColumn, hh, hl, hfam]
  · intro c l h hfam
    unfold colCallArg at h
    rcases hh : headerLangName c.headerCell.value with _ | l0
    · simp [hh] at h
    · rw [hh] at h
      by_cases hl : (l0 == []) = true
      · simp [hl] at h
      · simp [hl] at h
        subst h
        simp [formatColumn, hh, hl, hfam]

/-- Witness for the amended C6: a `Hindi_word` column with the
Devanagari font indexed gets `"Noto Sans Devanagari"` on its data cell. -/
theorem apply_font_formatting_behavior_witness :
    (formatColumn [codes "notosansdevanagari"]
        ⟨⟨codes "Hindi_word", none⟩, [⟨codes "x", none⟩]⟩).1.dataCells
      = [⟨codes "x", some (codes "Noto Sans Devanagari")⟩] := by
  have h := (apply_font_formatting_behavior [codes "notosansdevanagari"] []).2.2.2.2.1
    ⟨⟨codes "Hindi_word", none⟩, [⟨codes "x", none⟩]⟩ (codes "Hindi")
    (by decide) (by decide)
  rw [h]
  decide

/-- C7 counterexample: for the display name `"Mandarin Chinese"`, the
worker's word column is `Mandarin_Chinese_word` — the space becomes an
underscore — not the space-removed `MandarinChinese_word`. -/
theorem worker_columns_space_removed_cex :
    (worker_process_language ⟨fun b => some b, fun s => some s⟩
        (codes "Mandarin Chinese") [] (some [])).w_col
      ≠ strip_spaces_parens_spec (codes "Mandarin Chinese") ++ codes "_word" := by
  decide

/-- C7 amended: each worker emits exactly the two columns
`<name>_word` and `<name>_descr`, where the display name has its spaces
replaced by underscores and its parentheses removed before the suffix is
appended. -/
theorem worker_process_language_columns (tr : Translator) (name : Str)
    (words : List Cell) (descrs : Option (List Cell)) :
    (worker_process_language tr name words descrs).w_col
        = clean_name_spec name ++ codes "_word" ∧
      (worker_process_language tr name words descrs).d_col
        = clean_name_spec name ++ codes "_descr" := by
  have hfil : pyDeleteChar 41 (pyDeleteChar 40 (pyReplaceChar 32 95 name))
      = clean_name_spec name := by
    unfold pyDeleteChar clean_name_spec
    rw [List.filter_filter]
    apply List.filter_congr
    intro a _
    rw [Bool.and_comm]
  exact ⟨by unfold worker_process_language; rw [hfil],
    by unfold worker_process_language; rw [hfil]⟩

theorem processBatch_nil (tr : Translator) : processBatch tr [] = ([], [Ev.progress]) := rfl

theorem processBatch_length (tr : Translator) (batch : List Cell)
    (hlen : ∀ b r, tr.translateBatch b = some r → r.length = b.length) :
    (processBatch tr batch).1.length = batch.length := by
  unfold processBatch
  by_cases hb : ((batch.map cleanCell).all fun x => x == []) = true
  · rw [if_pos hb]
    simp
  · rw [if_neg hb]
    cases htr : tr.translateBatch (batch.map cleanCell) with
    | some res =>
      have h := hlen _ _ htr
      simpa using h
    | none => simp

theorem btt_cons_unfold (tr : Translator) (cs : Nat) (values : List Cell)
    (hcs : cs ≠ 0) (hv : values ≠ []) :
    batch_translate_text tr cs values =
      ((processBatch tr (values.take cs)).1
          ++ (batch_translate_text tr cs (values.drop cs)).1,
       (processBatch tr (values.take cs)).2
          ++ (batch_translate_text tr cs (values.drop cs)).2) := by
  rw [batch_translate_text, dif_neg (by push_neg; exact ⟨hcs, hv⟩)]

theorem btt_length_aux (tr : Translator) (cs : Nat) (hcs : 1 ≤ cs)
    (hlen : ∀ b r, tr.translateBatch b = some r → r.length = b.length) :
    ∀ n (values : List Cell), values.length ≤ n →
      (batch_translate_text tr cs values).1.length = values.length := by
  intro n
  induction n with
  | zero =>
    intro values hl
    have hv : values = [] := List.eq_nil_of_length_eq_zero (Nat.le_zero.mp hl)
    subst hv
    rw [batch_translate_text]
    simp
  | succ n ih =>
    intro values hl
    by_cases hv : values = []
    · subst hv
      rw [batch_translate_text]
      simp
    · have hpos : 0 < values.length := List.length_pos.mpr hv
      rw [btt_cons_unfold tr cs values (by omega) hv]
      simp only [List.length_append]
      rw [processBatch_length tr _ hlen,
        ih (values.drop cs) (by simp only [List.length_drop]; omega)]
      simp only [List.length_take, List.length_drop]
      omega

theorem btt_cons_fst (tr : Translator) (cs : Nat) (values : List Cell)
    (hcs : cs ≠ 0) (hv : values ≠ []) :
    (batch_translate_text tr cs values).1
      = (processBatch tr (values.take cs)).1
          ++ (batch_translate_text tr cs (values.drop cs)).1 := by
  rw [btt_cons_unfold tr cs values hcs hv]

theorem btt_fst_nil (tr : Translator) (cs : Nat) :
    (batch_translate_text tr cs []).1 = [] := by
  rw [batch_translate_text]
  simp

theorem btt_order_aux (tr : Translator) (cs : Nat) (hcs : 1 ≤ cs)
    (hlen : ∀ b r, tr.translateBatch b = some r → r.length = b.length) :
    ∀ (j : Nat) (values : List Cell) (k : Nat), k < cs →
      ((batch_translate_text tr cs values).1)[cs * j + k]? =
        ((processBatch tr ((values.drop (cs * j)).take cs)).1)[k]? := by
  intro j
  induction j with
  | zero =>
    intro values k hk
    by_cases hv : values = []
    · subst hv
      rw [btt_fst_nil]
      simp [processBatch_nil]
    · rw [btt_cons_fst tr cs values (by omega) hv, Nat.mul_zero, Nat.zero_add,
        List.drop_zero]
      by_cases hle : values.length ≤ cs
      · have hdrop : values.drop cs = [] := List.drop_eq_nil_of_le hle
        rw [hdrop, btt_fst_nil, List.append_nil]
      · have hpb : (processBatch tr (values.take cs)).1.length = cs := by
          rw [processBatch_length tr _ hlen, List.length_take]
          omega
        rw [List.getElem?_append, if_pos (by rw [hpb]; omega)]
  | succ j ih =>
    intro values k hk
    have hms : cs * (j + 1) = cs * j + cs := Nat.mul_succ cs j
    by_cases hv : values = []
    · subst hv
      rw [btt_fst_nil]
      simp [processBatch_nil]
    · rw [btt_cons_fst tr cs values (by omega) hv]
      by_cases hle : cs ≤ values.length
      · have hpb : (processBatch tr (values.take cs)).1.length = cs := by
          rw [processBatch_length tr _ hlen, List.length_take]
          omega
        have hidx : cs * (j + 1) + k
            = (processBatch tr (values.take cs)).1.length + (cs * j + k) := by
          rw [hpb]
          omega
        rw [hidx, List.getElem?_append_right (by omega), Nat.add_sub_cancel_left,
          ih (values.drop cs) k hk, List.drop_drop]
        have harg : cs + cs * j = cs * (j + 1) := by omega
        rw [harg]
      · push_neg at hle
        have hdrop : values.drop cs = [] := List.drop_eq_nil_of_le (by omega)
        have hlen1 : (processBatch tr (values.take cs)).1.length = values.length := by
          rw [processBatch_length tr _ hlen, List.length_take]
          omega
        have hd2 : values.drop (cs * (j + 1)) = [] := List.drop_eq_nil_of_le (by omega)
        rw [hdrop, btt_fst_nil, List.append_nil,
          List.getElem?_eq_none (by rw [hlen1]; omega), hd2]
        simp [processBatch_nil]

/-- C1: under the provider's same-length contract, the chunked
translator returns exactly one output per input, and the output at
position `cs * j + k` (for `k < cs`) is entry `k` of what batch `j`
contributes — whether that batch succeeded, short-circuited, or degraded
per item, every slot holds the translation (or the error sentinel) of
the input at the same position, in input order, across batch
boundaries. -/
theorem batch_translate_text_preserves_positions (tr : Translator) (cs : Nat)
    (values : List Cell) (hcs : 1 ≤ cs)
    (hlen : ∀ b r, tr.translateBatch b = some r → r.length = b.length) :
    (batch_translate_text tr cs values).1.length = values.length ∧
    ∀ j k : Nat, k < cs →
      ((batch_translate_text tr cs values).1)[cs * j + k]? =
        ((processBatch tr ((values.drop (cs * j)).take cs)).1)[k]? :=
  ⟨btt_length_aux tr cs hcs hlen values.length values le_rfl,
   fun j k hk => btt_order_aux tr cs hcs hlen j values k hk⟩

/-- Witness for C1: a one-element run with an order-preserving provider. -/
theorem batch_translate_text_preserves_positions_witness :
    (batch_translate_text ⟨fun b => some b, fun s => some s⟩ 2
        [(some (codes "a") : Cell)]).1.length = 1 := by
  have h := (batch_translate_text_preserves_positions
    ⟨fun b => some b, fun s => some s⟩ 2 [(some (codes "a") : Cell)] (by decide)
    (fun b r hr => by cases hr; rfl)).1
  simpa using h
